import Mathlib

/-!
Verification of the WhatsApp → Twilio SIP gateway (`src/index.js`).

The gateway's core is `rewriteSdp` (SDP codec rewriting through the
sdp-transform library), the INVITE request rewriter, the digest challenge
callback `defaultProxyCallback`, and the per-method relay dispatch in
`onIncomingRequest`.  Strings are modelled as their character lists
(`String.data`); the SDP parser and writer model the sdp-transform
dependency restricted to the lines the gateway's transform touches
(`m=` lines, `a=rtpmap`, `a=fmtp`, `a=rtcp`), with every other line
carried through verbatim.
-/

namespace Webrtotwa

/-! ## Data model and operations -/

/-- Split a character list at every occurrence of `c` (the separator is
dropped).  Always returns at least one piece. -/
def splitOnChar (c : Char) : List Char → List (List Char)
  | [] => [[]]
  | x :: xs =>
    let r := splitOnChar c xs
    if x = c then [] :: r
    else
      match r with
      | [] => [[x]]
      | h :: t => (x :: h) :: t

/-- Join pieces with the separator `c`. -/
def joinChar (c : Char) : List (List Char) → List Char
  | [] => []
  | [l] => l
  | l :: ls => l ++ c :: joinChar c ls

/-- The decimal digit character for `d < 10`. -/
def digitChar : Nat → Char
  | 0 => '0' | 1 => '1' | 2 => '2' | 3 => '3' | 4 => '4'
  | 5 => '5' | 6 => '6' | 7 => '7' | 8 => '8' | 9 => '9'
  | _ => '*'

/-- Fuel-driven digit expansion; the fuel only bounds the recursion depth. -/
def natToCharsAux : Nat → Nat → List Char
  | 0, _ => []
  | fuel + 1, n =>
    if n < 10 then [digitChar n]
    else natToCharsAux fuel (n / 10) ++ [digitChar (n % 10)]

/-- Decimal representation of a natural number, most significant digit first. -/
def natToChars (n : Nat) : List Char := natToCharsAux (n + 1) n

/-- Numeric value of a digit string (the JS `parseInt` on an all-digit string). -/
def charsToNat (ds : List Char) : Nat :=
  ds.foldl (fun a c => 10 * a + (c.toNat - 48)) 0

/-- Drop an expected literal lead-in; `none` when the list does not start
with it. -/
def afterLead : List Char → List Char → Option (List Char)
  | [], l => some l
  | _ :: _, [] => none
  | p :: ps, x :: xs => if x = p then afterLead ps xs else none

/-- One `a=rtpmap` entry: payload number, codec name, and optionally the
clock rate with an optional encoding-parameters suffix. -/
structure RtpEntry where
  payload : Nat
  codec : List Char
  rateEnc : Option (Nat × Option (List Char))
deriving DecidableEq

/-- One `a=fmtp` entry: payload number and raw format parameters. -/
structure FmtpEntry where
  payload : Nat
  config : List Char
deriving DecidableEq

/-- One media description (`m=` line plus its attribute lines). -/
structure MediaDesc where
  type : List Char
  port : Nat
  protocol : List Char
  payloads : List Char
  rtp : List RtpEntry
  fmtp : List FmtpEntry
  rtcp : Option (List Char)
  others : List (List Char)
deriving DecidableEq

/-- A parsed SDP session: the lines before the first `m=` line, then the
media descriptions. -/
structure SdpSession where
  prelude : List (List Char)
  media : List MediaDesc
deriving DecidableEq

def mLead : List Char := ['m', '=']

def rtpmapLead : List Char := "a=rtpmap:".data

def fmtpLead : List Char := "a=fmtp:".data

def rtcpLead : List Char := "a=rtcp:".data

/-- Characters sdp-transform's rtpmap grammar accepts in a codec name. -/
def isCodecChar (c : Char) : Bool :=
  c.isAlphanum || c = '-' || c = '.' || c = '_'

def isMLine (l : List Char) : Bool := (afterLead mLead l).isSome

/-- Parse an `a=rtpmap:` line.  `none` means the line is not a
well-formed rtpmap attribute and stays verbatim. -/
def parseRtpmap (l : List Char) : Option RtpEntry :=
  match afterLead rtpmapLead l with
  | none => none
  | some r =>
    if r.takeWhile Char.isDigit = [] then none
    else
      match r.dropWhile Char.isDigit with
      | ' ' :: r2 =>
        match r2.dropWhile isCodecChar with
        | [] =>
          some ⟨charsToNat (r.takeWhile Char.isDigit), r2.takeWhile isCodecChar, none⟩
        | '/' :: r4 =>
          if r4.takeWhile Char.isDigit = [] then none
          else
            match r4.dropWhile Char.isDigit with
            | [] =>
              some ⟨charsToNat (r.takeWhile Char.isDigit), r2.takeWhile isCodecChar,
                some (charsToNat (r4.takeWhile Char.isDigit), none)⟩
            | '/' :: r6 =>
              some ⟨charsToNat (r.takeWhile Char.isDigit), r2.takeWhile isCodecChar,
                some (charsToNat (r4.takeWhile Char.isDigit), some r6)⟩
            | _ => none
        | _ => none
      | _ => none

/-- Parse an `a=fmtp:` line. -/
def parseFmtp (l : List Char) : Option FmtpEntry :=
  match afterLead fmtpLead l with
  | none => none
  | some r =>
    if r.takeWhile Char.isDigit = [] then none
    else
      match r.dropWhile Char.isDigit with
      | ' ' :: cfg => some ⟨charsToNat (r.takeWhile Char.isDigit), cfg⟩
      | _ => none

/-- Parse the content of an `m=` line into a media description with empty
attributes. -/
def parseMLine (l : List Char) : Option MediaDesc :=
  match afterLead mLead l with
  | none => none
  | some content =>
    match splitOnChar ' ' content with
    | t :: p :: proto :: rest =>
      if p ≠ [] ∧ p.all Char.isDigit then
        some ⟨t, charsToNat p, proto, joinChar ' ' rest, [], [], none, []⟩
      else none
    | _ => none

/-- Route one attribute line of a media section into the media description,
in sdp-transform's grammar order (rtpmap, fmtp, rtcp, then verbatim). -/
def classifyInto (m : MediaDesc) (l : List Char) : MediaDesc :=
  match parseRtpmap l with
  | some e => { m with rtp := m.rtp ++ [e] }
  | none =>
    match parseFmtp l with
    | some f => { m with fmtp := m.fmtp ++ [f] }
    | none =>
      match afterLead rtcpLead l with
      | some r => { m with rtcp := some r }
      | none => { m with others := m.others ++ [l] }

def applyAttrs (m : MediaDesc) (ls : List (List Char)) : MediaDesc :=
  ls.foldl classifyInto m

/-- Fuel-driven media-block parsing; the fuel only bounds recursion depth. -/
def parseBlocksAux : Nat → List (List Char) → Option (List MediaDesc)
  | _, [] => some []
  | 0, _ :: _ => none
  | fuel + 1, l :: ls =>
    match parseMLine l with
    | none => none
    | some m0 =>
      match parseBlocksAux fuel (ls.dropWhile (fun x => !isMLine x)) with
      | none => none
      | some ms => some (applyAttrs m0 (ls.takeWhile (fun x => !isMLine x)) :: ms)

/-- Parse the media blocks: the line list must start with an `m=` line (or
be empty); fails on a malformed `m=` line. -/
def parseBlocks (lines : List (List Char)) : Option (List MediaDesc) :=
  parseBlocksAux lines.length lines

def parseLines (lines : List (List Char)) : Option SdpSession :=
  let pre := lines.takeWhile (fun l => !isMLine l)
  let rest := lines.dropWhile (fun l => !isMLine l)
  (parseBlocks rest).map (fun ms => ⟨pre, ms⟩)

def writeRtp (e : RtpEntry) : List Char :=
  rtpmapLead ++ natToChars e.payload ++ ' ' :: e.codec ++
    (match e.rateEnc with
     | none => []
     | some (r, none) => '/' :: natToChars r
     | some (r, some enc) => '/' :: natToChars r ++ '/' :: enc)

def writeFmtp (f : FmtpEntry) : List Char :=
  fmtpLead ++ natToChars f.payload ++ ' ' :: f.config

def writeMLine (m : MediaDesc) : List Char :=
  mLead ++ m.type ++ ' ' :: natToChars m.port ++ ' ' :: m.protocol ++ ' ' :: m.payloads

def writeMedia (m : MediaDesc) : List (List Char) :=
  writeMLine m :: (m.rtp.map writeRtp ++ m.fmtp.map writeFmtp ++
    (match m.rtcp with
     | some r => [rtcpLead ++ r]
     | none => []) ++ m.others)

def writeLines (q : SdpSession) : List (List Char) :=
  q.prelude ++ (q.media.map writeMedia).flatten

/-- Strip one trailing carriage return, as sdp-transform's line split does
for CRLF-terminated lines. -/
def stripCR (l : List Char) : List Char :=
  if l.getLast? = some '\r' then l.dropLast else l

/-- Split a body into its non-empty lines. -/
def lineSplit (s : List Char) : List (List Char) :=
  ((splitOnChar '\n' s).map stripCR).filter (fun l => l ≠ [])

/-- Join lines, terminating each with CRLF as sdp-transform's writer does. -/
def lineJoin (ls : List (List Char)) : List Char :=
  (ls.map (fun l => l ++ ['\r', '\n'])).flatten

def parseSdp (s : String) : Option SdpSession :=
  parseLines (lineSplit s.data)

def writeSdp (q : SdpSession) : String :=
  ⟨lineJoin (writeLines q)⟩

/-- The constant `allowedPayloads` from `src/index.js`. -/
def allowedPayloads : List Nat := [0, 8, 101]

/-- The audio-media transformation inside `parsed.media.map` in
`rewriteSdp` (`src/index.js` lines 59-79). -/
def rewriteMedia (media : MediaDesc) : MediaDesc :=
  if media.type = "audio".data then
    let payloads := joinChar ' ' (allowedPayloads.map natToChars)
    let rtp1 := media.rtp.filter (fun r => allowedPayloads.contains r.payload)
    let rtp2 :=
      if (rtp1.find? (fun r => r.payload == 101)).isSome then rtp1
      else rtp1 ++ [⟨101, "telephone-event".data, some (8000, none)⟩]
    let fmtp1 := media.fmtp.filter (fun f => allowedPayloads.contains f.payload)
    let fmtp2 :=
      if (fmtp1.find? (fun f => f.payload == 101)).isSome then fmtp1
      else fmtp1 ++ [⟨101, "0-16".data⟩]
    { media with payloads := payloads, rtp := rtp2, fmtp := fmtp2, rtcp := none }
  else media

def rewriteSession (q : SdpSession) : SdpSession :=
  { q with media := q.media.map rewriteMedia }

/-- The function `rewriteSdp` from `src/index.js`: parse, rewrite every media
description, serialise; on parse failure return the body unchanged
(the `try`/`catch` fail-open path). -/
def rewriteSdp (sdp : String) : String :=
  match parseSdp sdp with
  | some parsed => writeSdp (rewriteSession parsed)
  | none => sdp

/-- Configuration read from the environment in `src/index.js`. -/
structure GatewayConfig where
  twilioDest : String
  twilioDomain : String
  metaUser : String
  publicIp : Option String
deriving DecidableEq

/-- The To header object: its URI plus all remaining fields, untouched by
the gateway (`rest`, e.g. display name and tag). -/
structure ToHeader where
  uri : String
  rest : String
deriving DecidableEq

structure ContactHeader where
  uri : String
deriving DecidableEq

/-- The headers the gateway touches; `fromHeader` stands for the whole
From header value, which the code never modifies. -/
structure SipHeaders where
  toHeader : Option ToHeader
  fromHeader : String
  contact : Option (List ContactHeader)
  contentLength : Option String
deriving DecidableEq

structure SipRequest where
  method : String
  uri : String
  headers : SipHeaders
  content : Option String
deriving DecidableEq

def destUri (cfg : GatewayConfig) : String :=
  "sip:" ++ cfg.twilioDest ++ "@" ++ cfg.twilioDomain

/-- The INVITE rewriting of `src/index.js` lines 93-109: rewrite the SDP
body and Content-Length when a body is present (JS truthiness: absent or
empty bodies are skipped), then set the request URI, the To header URI
(creating the header if absent) and the Contact header.  The From header
is never assigned. -/
def rewriteInvite (cfg : GatewayConfig) (rq : SipRequest) : SipRequest :=
  let rq1 :=
    match rq.content with
    | some body =>
      if body = "" then rq
      else
        let newSdp := rewriteSdp body
        { rq with
          content := some newSdp,
          headers := { rq.headers with contentLength := some (toString newSdp.utf8ByteSize) } }
    | none => rq
  let d := destUri cfg
  { rq1 with
    uri := d,
    headers := { rq1.headers with
      toHeader := some (match rq1.headers.toHeader with
        | some t => { t with uri := d }
        | none => { uri := d, rest := "" }),
      contact := some [⟨"sip:" ++ cfg.metaUser ++ "@" ++ cfg.publicIp.getD "example.com"⟩] } }

/-- What the gateway does with one inbound request. -/
inductive GatewayAction where
  /-- `proxy.send(rq, defaultProxyCallback)`: forward downstream with the
  challenge-handling callback attached. -/
  | forwardInvite (rq : SipRequest)
  /-- `proxy.send(rq)`: relay the request verbatim. -/
  | forward (rq : SipRequest)
  /-- `proxy.send(sip.makeResponse(rq, status, reason))`: answer locally,
  contacting nobody downstream. -/
  | respond (status : Nat) (reason : String)
deriving DecidableEq

/-- The method dispatch of `onIncomingRequest` (`src/index.js` lines
88-130).  The surrounding `try`/`catch` responds 500 on a synchronous
exception; the branches themselves are total here. -/
def onIncomingRequest (cfg : GatewayConfig) (rq : SipRequest) : GatewayAction :=
  if rq.method = "INVITE" then
    .forwardInvite (rewriteInvite cfg rq)
  else if rq.method = "ACK" ∨ rq.method = "CANCEL" ∨ rq.method = "BYE" ∨
      rq.method = "PRACK" ∨ rq.method = "UPDATE" then
    .forward rq
  else
    .respond 405 "Method Not Allowed"

/-- Digest session state kept in `sessionTwilio`. -/
structure AuthSession where
  nonce : String
  nc : Nat
  cnonce : String
deriving DecidableEq

/-- The challenge parameters carried by a `WWW-Authenticate` /
`Proxy-Authenticate` header; either may be absent in a malformed
challenge. -/
structure DigestChallenge where
  realm : Option String
  nonce : Option String
deriving DecidableEq

/-- A downstream response as seen by the callback: its status and the
challenge header, when one is present. -/
structure SipResponse where
  status : Nat
  challenge : Option DigestChallenge
deriving DecidableEq

/-- Modelled from the spec: the challenge-header parsing step of the
`sip/digest` dependency (§4.3 step 1), which needs both a realm and a
nonce and fails when either is missing. -/
def parseChallenge (rs : SipResponse) : Option (String × String) :=
  match rs.challenge with
  | some ch =>
    match ch.realm, ch.nonce with
    | some r, some n => some (r, n)
    | _, _ => none
  | none => none

/-- Modelled from the spec: the session update performed by the
`sip/digest` dependency's `signRequest` (§4.3 step 2): a reused nonce
increments the nonce count, a new nonce is adopted with the count reset
to 1 and a freshly generated client nonce. -/
def updateAuthSession (s : AuthSession) (challengeNonce : String)
    (freshCnonce : String) : AuthSession :=
  if s.nonce = challengeNonce then { s with nc := s.nc + 1 }
  else { nonce := challengeNonce, nc := 1, cnonce := freshCnonce }

/-- What one invocation of the response callback does. -/
inductive CallbackOutcome where
  /-- The request was signed and resent downstream (`proxy.send(rq)`). -/
  | resendDownstream (s : AuthSession)
  /-- The response was relayed to the original caller (`proxy.send(rs)`). -/
  | relayUpstream (rs : SipResponse)
  /-- `digest.signRequest` threw.  The callback runs when a downstream
  response arrives, outside the `try`/`catch` of `onIncomingRequest`, so
  the exception escapes: nothing is resent and nothing is answered. -/
  | uncaughtFault
deriving DecidableEq

/-- The callback `defaultProxyCallback` (`src/index.js` lines 112-123): on a 401 or 407
the request is signed and resent, unconditionally; any other response is
relayed upstream. -/
def defaultProxyCallback (sess : AuthSession) (freshCnonce : String)
    (rs : SipResponse) : CallbackOutcome :=
  if rs.status = 401 ∨ rs.status = 407 then
    match parseChallenge rs with
    | some (_, n) => .resendDownstream (updateAuthSession sess n freshCnonce)
    | none => .uncaughtFault
  else .relayUpstream rs

/-- Observable transaction state: the digest session, how many times the
request has been (re)sent downstream, and what has been relayed
upstream. -/
structure TxState where
  session : AuthSession
  downstreamSends : Nat
  upstream : List SipResponse
deriving DecidableEq

def txStep (freshCnonce : String) (st : TxState) (rs : SipResponse) : TxState :=
  match defaultProxyCallback st.session freshCnonce rs with
  | .resendDownstream s =>
    { st with session := s, downstreamSends := st.downstreamSends + 1 }
  | .relayUpstream r => { st with upstream := st.upstream ++ [r] }
  | .uncaughtFault => st

def txRun (freshCnonce : String) (st : TxState) (rss : List SipResponse) : TxState :=
  rss.foldl (txStep freshCnonce) st

/-- A gateway-failure status (502 Bad Gateway / 503 Service Unavailable),
what the spec requires upstream once the retry cap is exceeded. -/
def isGatewayFailure (rs : SipResponse) : Bool :=
  rs.status == 502 || rs.status == 503

/-- A line that survives the gateway's processing: non-empty and free of
line breaks. -/
def lineOK (l : List Char) : Prop := l ≠ [] ∧ '\n' ∉ l

/-- A verbatim media-level line: matched by none of the attribute
patterns, and not an `m=` line. -/
def WFother (o : List Char) : Prop :=
  lineOK o ∧ isMLine o = false ∧ parseRtpmap o = none ∧ parseFmtp o = none ∧
    afterLead rtcpLead o = none

def WFrtp (e : RtpEntry) : Prop :=
  e.codec.all isCodecChar = true ∧
    ∀ re enc, e.rateEnc = some re → re.2 = some enc → '\n' ∉ enc

def WFmedia (m : MediaDesc) : Prop :=
  ' ' ∉ m.type ∧ ' ' ∉ m.protocol ∧
  '\n' ∉ m.type ∧ '\n' ∉ m.protocol ∧ '\n' ∉ m.payloads ∧
  (∀ e ∈ m.rtp, WFrtp e) ∧
  (∀ f ∈ m.fmtp, '\n' ∉ f.config) ∧
  (∀ r, m.rtcp = some r → '\n' ∉ r) ∧
  (∀ o ∈ m.others, WFother o)

def WFsession (q : SdpSession) : Prop :=
  (∀ l ∈ q.prelude, lineOK l ∧ isMLine l = false) ∧ ∀ m ∈ q.media, WFmedia m

/-- The list of attribute lines written for a media description. -/
def attrLines (m : MediaDesc) : List (List Char) :=
  m.rtp.map writeRtp ++ m.fmtp.map writeFmtp ++
    (match m.rtcp with
     | some r => [rtcpLead ++ r]
     | none => []) ++ m.others

def teleEventEntry : RtpEntry := ⟨101, "telephone-event".data, some (8000, none)⟩

def teleEventFmtp : FmtpEntry := ⟨101, "0-16".data⟩

/-- All fmtp entries of the audio media descriptions of a body. -/
def audioFmtps (s : String) : List FmtpEntry :=
  match parseSdp s with
  | none => []
  | some q => ((q.media.filter fun m => m.type = "audio".data).map MediaDesc.fmtp).flatten

/-- An SDP offer whose audio media already carries a telephone-event
format-parameter entry with configuration `0-15`. -/
def c1ExampleSdp : String :=
  "v=0\r\no=- 0 0 IN IP4 127.0.0.1\r\ns=-\r\nm=audio 49170 RTP/AVP 0 101\r\na=rtpmap:0 PCMU/8000\r\na=rtpmap:101 telephone-event/8000\r\na=fmtp:101 0-15\r\n"

/-- A minimal audio-only offer with neither rtpmap 101 nor fmtp 101. -/
def c1WitnessSdp : String := "m=audio 5 RTP/AVP 96\r\n"

def c1WitnessMedia : MediaDesc :=
  ⟨"audio".data, 5, "RTP/AVP".data, "96".data, [], [], none, []⟩

def c1WitnessSession : SdpSession := ⟨[], [c1WitnessMedia]⟩

/-- A well-formed 401 challenge response, as used by the C2 witness. -/
def challenge401 : SipResponse :=
  ⟨401, some ⟨some "sip.twilio.com", some "abc123"⟩⟩

def c5Config : GatewayConfig :=
  ⟨"+5215541655565", "nonocard.sip.twilio.com", "meta", none⟩

def c5Invite : SipRequest :=
  ⟨"INVITE", "sip:gw@example.net",
    ⟨some ⟨"sip:gw@example.net", ";tag=7"⟩, "<sip:caller@wa.example>;tag=1", none, none⟩,
    none⟩

def c8Bye : SipRequest :=
  ⟨"BYE", "sip:callee@nonocard.sip.twilio.com",
    ⟨some ⟨"sip:callee@nonocard.sip.twilio.com", ";tag=7"⟩,
      "<sip:caller@wa.example>;tag=1", none, some "0"⟩, none⟩

def c9Options : SipRequest :=
  ⟨"OPTIONS", "sip:gw@example.net",
    ⟨none, "<sip:caller@wa.example>", none, none⟩, none⟩

def c10Invite : SipRequest :=
  ⟨"INVITE", "sip:gw@example.net",
    ⟨none, "<sip:caller@wa.example>", none, some "2"⟩, some "é"⟩

/-! ## Properties -/

theorem splitOnChar_ne_nil (c : Char) (l : List Char) : splitOnChar c l ≠ [] := by
  induction l with
  | nil => simp [splitOnChar]
  | cons x xs ih =>
    simp only [splitOnChar]
    split
    · simp
    · match h : splitOnChar c xs with
      | [] => exact absurd h ih
      | h' :: t => simp

theorem joinChar_splitOnChar (c : Char) (l : List Char) :
    joinChar c (splitOnChar c l) = l := by
  induction l with
  | nil => rfl
  | cons x xs ih =>
    simp only [splitOnChar]
    split
    · rename_i hx
      subst hx
      match h : splitOnChar x xs with
      | [] => exact absurd h (splitOnChar_ne_nil x xs)
      | h' :: t =>
        rw [h] at ih
        simp [joinChar, ih]
    · rename_i hx
      match h : splitOnChar c xs with
      | [] => exact absurd h (splitOnChar_ne_nil c xs)
      | h' :: t =>
        rw [h] at ih
        match t with
        | [] => simp only [joinChar] at ih ⊢; rw [ih]
        | t0 :: ts => simp only [joinChar] at ih ⊢; rw [List.cons_append, ih]

theorem not_mem_of_mem_splitOnChar {c : Char} {l : List Char} {p : List Char}
    (hp : p ∈ splitOnChar c l) : c ∉ p := by
  induction l generalizing p with
  | nil =>
    simp [splitOnChar] at hp
    simp [hp]
  | cons x xs ih =>
    simp only [splitOnChar] at hp
    split at hp
    · rcases List.mem_cons.mp hp with h | h
      · simp [h]
      · exact ih h
    · rename_i hx
      match hsp : splitOnChar c xs with
      | [] => exact absurd hsp (splitOnChar_ne_nil c xs)
      | h' :: t =>
        rw [hsp] at hp
        rcases List.mem_cons.mp hp with h | h
        · subst h
          intro hmem
          rcases List.mem_cons.mp hmem with h | h
          · exact hx h.symm
          · exact ih (by rw [hsp]; exact List.mem_cons_self h' t) h
        · exact ih (by rw [hsp]; exact List.mem_cons_of_mem h' h)

theorem mem_of_mem_splitOnChar {c x : Char} {l : List Char} {p : List Char}
    (hp : p ∈ splitOnChar c l) (hx : x ∈ p) : x ∈ l := by
  induction l generalizing p with
  | nil =>
    simp [splitOnChar] at hp
    subst hp
    exact absurd hx (List.not_mem_nil x)
  | cons y ys ih =>
    simp only [splitOnChar] at hp
    split at hp
    · rcases List.mem_cons.mp hp with h | h
      · subst h; exact absurd hx (List.not_mem_nil x)
      · exact List.mem_cons_of_mem y (ih h hx)
    · match hsp : splitOnChar c ys with
      | [] => exact absurd hsp (splitOnChar_ne_nil c ys)
      | h' :: t =>
        rw [hsp] at hp
        rcases List.mem_cons.mp hp with h | h
        · subst h
          rcases List.mem_cons.mp hx with h | h
          · simp [h]
          · exact List.mem_cons_of_mem y
              (ih (by rw [hsp]; exact List.mem_cons_self h' t) h)
        · exact List.mem_cons_of_mem y
            (ih (by rw [hsp]; exact List.mem_cons_of_mem h' h) hx)

theorem mem_joinChar {c x : Char} {ps : List (List Char)}
    (hx : x ∈ joinChar c ps) : x = c ∨ ∃ p ∈ ps, x ∈ p := by
  induction ps with
  | nil => exact absurd hx (List.not_mem_nil x)
  | cons p ps ih =>
    match ps with
    | [] =>
      right
      exact ⟨p, List.mem_cons_self p [], hx⟩
    | q :: qs =>
      simp only [joinChar] at hx
      rcases List.mem_append.mp hx with h | h
      · right; exact ⟨p, List.mem_cons_self p (q :: qs), h⟩
      · rcases List.mem_cons.mp h with h | h
        · left; exact h
        · rcases ih h with h | ⟨r, hr, hxr⟩
          · left; exact h
          · right; exact ⟨r, List.mem_cons_of_mem p hr, hxr⟩

/-- Splitting the concatenation `a ++ c :: b` when `a` avoids the separator:
the first piece is exactly `a`. -/
theorem splitOnChar_append_cons {c : Char} {a : List Char} (b : List Char)
    (ha : c ∉ a) : splitOnChar c (a ++ c :: b) = a :: splitOnChar c b := by
  induction a with
  | nil => simp [splitOnChar]
  | cons x xs ih =>
    have hx : x ≠ c := fun h => ha (h ▸ List.mem_cons_self x xs)
    have hxs : c ∉ xs := fun h => ha (List.mem_cons_of_mem x h)
    simp only [List.cons_append, splitOnChar, List.append_eq, if_neg hx]
    rw [ih hxs]

/-- Splitting a list that avoids the separator yields a single piece. -/
theorem splitOnChar_eq_single {c : Char} {a : List Char} (ha : c ∉ a) :
    splitOnChar c a = [a] := by
  induction a with
  | nil => rfl
  | cons x xs ih =>
    have hx : x ≠ c := fun h => ha (h ▸ List.mem_cons_self x xs)
    have hxs : c ∉ xs := fun h => ha (List.mem_cons_of_mem x h)
    simp only [splitOnChar, ih hxs, if_neg hx]

theorem natToCharsAux_fuel {fuel fuel' n : Nat} (h : n < fuel) (h' : n < fuel') :
    natToCharsAux fuel n = natToCharsAux fuel' n := by
  induction fuel generalizing fuel' n with
  | zero => omega
  | succ f ih =>
    match fuel' with
    | 0 => omega
    | f' + 1 =>
      simp only [natToCharsAux]
      split
      · rfl
      · rename_i h10
        have hd := Nat.div_lt_self (show 0 < n by omega) (show 1 < 10 by omega)
        rw [ih (show n / 10 < f by omega) (show n / 10 < f' by omega)]

theorem natToChars_eq (n : Nat) :
    natToChars n =
      if n < 10 then [digitChar n]
      else natToChars (n / 10) ++ [digitChar (n % 10)] := by
  show natToCharsAux (n + 1) n = _
  simp only [natToCharsAux]
  split
  · rfl
  · rename_i h
    have hd := Nat.div_lt_self (show 0 < n by omega) (show 1 < 10 by omega)
    rw [natToCharsAux_fuel (show n / 10 < n from hd) (Nat.lt_succ_self _)]
    rfl

theorem digitChar_isDigit {d : Nat} (h : d < 10) : (digitChar d).isDigit = true := by
  interval_cases d <;> decide

theorem digitChar_toNat {d : Nat} (h : d < 10) : (digitChar d).toNat = 48 + d := by
  interval_cases d <;> decide

theorem natToChars_ne_nil (n : Nat) : natToChars n ≠ [] := by
  rw [natToChars_eq]
  split
  · simp
  · simp

theorem natToChars_all_digit (n : Nat) : ∀ ch ∈ natToChars n, ch.isDigit = true := by
  induction n using Nat.strong_induction_on with
  | _ n ih =>
    intro ch hch
    rw [natToChars_eq] at hch
    split at hch
    · rename_i h
      rcases List.mem_singleton.mp hch with rfl
      exact digitChar_isDigit h
    · rename_i h
      rcases List.mem_append.mp hch with hm | hm
      · exact ih (n / 10) (Nat.div_lt_self (by omega) (by omega)) ch hm
      · rcases List.mem_singleton.mp hm with rfl
        exact digitChar_isDigit (Nat.mod_lt n (by omega))

theorem charsToNat_append_digit (a : List Char) (c : Char) :
    charsToNat (a ++ [c]) = 10 * charsToNat a + (c.toNat - 48) := by
  simp [charsToNat, List.foldl_append]

theorem charsToNat_natToChars (n : Nat) : charsToNat (natToChars n) = n := by
  induction n using Nat.strong_induction_on with
  | _ n ih =>
    rw [natToChars_eq]
    split
    · rename_i h
      simp [charsToNat, digitChar_toNat h]
    · rename_i h
      rw [charsToNat_append_digit,
        ih (n / 10) (Nat.div_lt_self (by omega) (by omega)),
        digitChar_toNat (Nat.mod_lt n (by omega))]
      omega

theorem natToChars_no_newline (n : Nat) : '\n' ∉ natToChars n := by
  intro h
  have := natToChars_all_digit n '\n' h
  simp [Char.isDigit] at this

theorem natToChars_no_space (n : Nat) : ' ' ∉ natToChars n := by
  intro h
  have := natToChars_all_digit n ' ' h
  simp [Char.isDigit] at this

theorem takeWhile_all_append {α : Type} (p : α → Bool) {l : List α} {c : α}
    (r : List α) (hl : ∀ x ∈ l, p x = true) (hc : p c = false) :
    (l ++ c :: r).takeWhile p = l := by
  induction l with
  | nil => simp [List.takeWhile, hc]
  | cons x xs ih =>
    have hx := hl x (List.mem_cons_self x xs)
    simp only [List.cons_append, List.takeWhile_cons, hx, if_true]
    rw [ih (fun y hy => hl y (List.mem_cons_of_mem x hy))]

theorem dropWhile_all_append {α : Type} (p : α → Bool) {l : List α} {c : α}
    (r : List α) (hl : ∀ x ∈ l, p x = true) (hc : p c = false) :
    (l ++ c :: r).dropWhile p = c :: r := by
  induction l with
  | nil => simp [List.dropWhile, hc]
  | cons x xs ih =>
    have hx := hl x (List.mem_cons_self x xs)
    simp only [List.cons_append, List.dropWhile_cons, hx, if_true]
    exact ih (fun y hy => hl y (List.mem_cons_of_mem x hy))

theorem takeWhile_eq_self_of_all {α : Type} (p : α → Bool) {l : List α}
    (hl : ∀ x ∈ l, p x = true) : l.takeWhile p = l := by
  induction l with
  | nil => rfl
  | cons x xs ih =>
    have hx := hl x (List.mem_cons_self x xs)
    simp only [List.takeWhile_cons, hx, if_true]
    rw [ih (fun y hy => hl y (List.mem_cons_of_mem x hy))]

theorem dropWhile_eq_nil_of_all {α : Type} (p : α → Bool) {l : List α}
    (hl : ∀ x ∈ l, p x = true) : l.dropWhile p = [] := by
  induction l with
  | nil => rfl
  | cons x xs ih =>
    have hx := hl x (List.mem_cons_self x xs)
    simp only [List.dropWhile_cons, hx, if_true]
    exact ih (fun y hy => hl y (List.mem_cons_of_mem x hy))

theorem length_dropWhile_le {α : Type} (p : α → Bool) (l : List α) :
    (l.dropWhile p).length ≤ l.length := by
  induction l with
  | nil => simp [List.dropWhile]
  | cons x xs ih =>
    simp only [List.dropWhile_cons]
    split
    · exact Nat.le_trans ih (by simp)
    · simp

theorem mem_of_mem_dropWhile {α : Type} {p : α → Bool} {l : List α} {x : α}
    (h : x ∈ l.dropWhile p) : x ∈ l := by
  induction l with
  | nil => simpa [List.dropWhile] using h
  | cons y ys ih =>
    simp only [List.dropWhile_cons] at h
    split at h
    · exact List.mem_cons_of_mem y (ih h)
    · exact h

theorem mem_of_mem_takeWhile {α : Type} {p : α → Bool} {l : List α} {x : α}
    (h : x ∈ l.takeWhile p) : x ∈ l := by
  induction l with
  | nil => simpa [List.takeWhile] using h
  | cons y ys ih =>
    simp only [List.takeWhile_cons] at h
    split at h
    · rcases List.mem_cons.mp h with h | h
      · simp [h]
      · exact List.mem_cons_of_mem y (ih h)
    · exact absurd h (List.not_mem_nil x)

theorem afterLead_append (p rest : List Char) : afterLead p (p ++ rest) = some rest := by
  induction p with
  | nil => rfl
  | cons x xs ih => simp [afterLead, ih]

theorem afterLead_eq_some {p l rest : List Char} (h : afterLead p l = some rest) :
    l = p ++ rest := by
  induction p generalizing l with
  | nil =>
    simp only [afterLead, Option.some.injEq] at h
    simpa using h
  | cons x xs ih =>
    match l with
    | [] => simp [afterLead] at h
    | y :: ys =>
      simp only [afterLead] at h
      split at h
      · rename_i hy
        subst hy
        rw [List.cons_append, ih h]
      · exact absurd h (by simp)

theorem mem_of_afterLead {p l rest : List Char} (h : afterLead p l = some rest) :
    ∀ x ∈ rest, x ∈ l := by
  intro x hx
  rw [afterLead_eq_some h]
  exact List.mem_append_right p hx

theorem parseBlocksAux_fuel {fuel fuel' : Nat} {lines : List (List Char)}
    (h : lines.length ≤ fuel) (h' : lines.length ≤ fuel') :
    parseBlocksAux fuel lines = parseBlocksAux fuel' lines := by
  induction fuel generalizing fuel' lines with
  | zero =>
    match lines with
    | [] =>
      match fuel' with
      | 0 => rfl
      | _ + 1 => rfl
    | _ :: _ => simp at h
  | succ f ih =>
    match lines with
    | [] =>
      match fuel' with
      | 0 => rfl
      | _ + 1 => rfl
    | l :: ls =>
      match fuel' with
      | 0 => simp at h'
      | f' + 1 =>
        simp only [parseBlocksAux]
        have hrest : (ls.dropWhile (fun x => !isMLine x)).length ≤ ls.length :=
          length_dropWhile_le _ _
        simp only [List.length_cons] at h h'
        rw [ih (by omega) (show (ls.dropWhile (fun x => !isMLine x)).length ≤ f' by omega)]

theorem parseBlocks_nil : parseBlocks [] = some [] := rfl

theorem parseBlocks_cons (l : List Char) (ls : List (List Char)) :
    parseBlocks (l :: ls) =
      match parseMLine l with
      | none => none
      | some m0 =>
        match parseBlocks (ls.dropWhile (fun x => !isMLine x)) with
        | none => none
        | some ms => some (applyAttrs m0 (ls.takeWhile (fun x => !isMLine x)) :: ms) := by
  show parseBlocksAux (ls.length + 1) (l :: ls) = _
  simp only [parseBlocksAux]
  rw [parseBlocksAux_fuel (length_dropWhile_le _ _) (Nat.le_refl _)]
  rfl

theorem isMLine_attr {x : Char} (hx : x ≠ 'm') (xs : List Char) :
    isMLine (x :: xs) = false := by
  have h : mLead = ['m', '='] := rfl
  simp [isMLine, h, afterLead, hx]

theorem afterLead_rtpmap_fmtp (x : List Char) :
    afterLead rtpmapLead (fmtpLead ++ x) = none := by
  have h1 : rtpmapLead = ['a','=','r','t','p','m','a','p',':'] := rfl
  have h2 : fmtpLead = ['a','=','f','m','t','p',':'] := rfl
  rw [h1, h2]
  simp [afterLead]

theorem afterLead_rtpmap_rtcp (x : List Char) :
    afterLead rtpmapLead (rtcpLead ++ x) = none := by
  have h1 : rtpmapLead = ['a','=','r','t','p','m','a','p',':'] := rfl
  have h2 : rtcpLead = ['a','=','r','t','c','p',':'] := rfl
  rw [h1, h2]
  simp [afterLead]

theorem afterLead_fmtp_rtcp (x : List Char) :
    afterLead fmtpLead (rtcpLead ++ x) = none := by
  have h1 : fmtpLead = ['a','=','f','m','t','p',':'] := rfl
  have h2 : rtcpLead = ['a','=','r','t','c','p',':'] := rfl
  rw [h1, h2]
  simp [afterLead]

theorem parseRtpmap_fmtpLine (f : FmtpEntry) : parseRtpmap (writeFmtp f) = none := by
  rw [parseRtpmap, writeFmtp]
  simp only [List.append_assoc]
  rw [afterLead_rtpmap_fmtp]

theorem parseRtpmap_rtcpLine (r : List Char) : parseRtpmap (rtcpLead ++ r) = none := by
  rw [parseRtpmap, afterLead_rtpmap_rtcp]

theorem parseFmtp_rtcpLine (r : List Char) : parseFmtp (rtcpLead ++ r) = none := by
  rw [parseFmtp, afterLead_fmtp_rtcp]

theorem isMLine_writeRtp (e : RtpEntry) : isMLine (writeRtp e) = false := by
  rw [writeRtp]
  have h1 : rtpmapLead = 'a' :: ['=','r','t','p','m','a','p',':'] := rfl
  rw [h1]
  simp only [List.cons_append, List.append_assoc]
  exact isMLine_attr (by decide) _

theorem isMLine_writeFmtp (f : FmtpEntry) : isMLine (writeFmtp f) = false := by
  rw [writeFmtp]
  have h1 : fmtpLead = 'a' :: ['=','f','m','t','p',':'] := rfl
  rw [h1]
  simp only [List.cons_append, List.append_assoc]
  exact isMLine_attr (by decide) _

theorem isMLine_rtcpLine (r : List Char) : isMLine (rtcpLead ++ r) = false := by
  have h1 : rtcpLead = 'a' :: ['=','r','t','c','p',':'] := rfl
  rw [h1]
  simp only [List.cons_append]
  exact isMLine_attr (by decide) _

theorem writeMLine_shape (m : MediaDesc) :
    writeMLine m =
      mLead ++ (m.type ++ ' ' :: (natToChars m.port ++ ' ' :: (m.protocol ++ ' ' :: m.payloads))) := by
  simp [writeMLine, List.append_assoc]

theorem isMLine_writeMLine (m : MediaDesc) : isMLine (writeMLine m) = true := by
  rw [writeMLine_shape, isMLine, afterLead_append]
  rfl

/-- A written rtpmap line parses back to the entry it was written from,
provided the codec name stays within the rtpmap grammar's alphabet. -/
theorem parseRtpmap_writeRtp (e : RtpEntry)
    (hcodec : e.codec.all isCodecChar = true) :
    parseRtpmap (writeRtp e) = some e := by
  obtain ⟨pl, codec, rateEnc⟩ := e
  simp only [List.all_eq_true] at hcodec
  have hdigits := natToChars_all_digit pl
  have hsp : Char.isDigit ' ' = false := by decide
  have hslash : isCodecChar '/' = false := by decide
  have hslashd : Char.isDigit '/' = false := by decide
  match rateEnc with
  | none =>
    have hw : writeRtp ⟨pl, codec, none⟩ =
        rtpmapLead ++ (natToChars pl ++ ' ' :: codec) := by
      simp [writeRtp, List.append_assoc]
    rw [hw]
    simp only [parseRtpmap, afterLead_append,
      takeWhile_all_append Char.isDigit codec hdigits hsp,
      dropWhile_all_append Char.isDigit codec hdigits hsp,
      if_neg (natToChars_ne_nil pl),
      takeWhile_eq_self_of_all isCodecChar hcodec,
      dropWhile_eq_nil_of_all isCodecChar hcodec,
      charsToNat_natToChars]
  | some (rate, none) =>
    have hw : writeRtp ⟨pl, codec, some (rate, none)⟩ =
        rtpmapLead ++ (natToChars pl ++ ' ' :: (codec ++ '/' :: natToChars rate)) := by
      simp [writeRtp, List.append_assoc]
    rw [hw]
    simp only [parseRtpmap, afterLead_append,
      takeWhile_all_append Char.isDigit _ hdigits hsp,
      dropWhile_all_append Char.isDigit _ hdigits hsp,
      if_neg (natToChars_ne_nil pl),
      takeWhile_all_append isCodecChar _ hcodec hslash,
      dropWhile_all_append isCodecChar _ hcodec hslash,
      takeWhile_eq_self_of_all Char.isDigit (natToChars_all_digit rate),
      dropWhile_eq_nil_of_all Char.isDigit (natToChars_all_digit rate),
      if_neg (natToChars_ne_nil rate),
      charsToNat_natToChars]
  | some (rate, some enc) =>
    have hw : writeRtp ⟨pl, codec, some (rate, some enc)⟩ =
        rtpmapLead ++ (natToChars pl ++ ' ' ::
          (codec ++ '/' :: (natToChars rate ++ '/' :: enc))) := by
      simp [writeRtp, List.append_assoc]
    rw [hw]
    simp only [parseRtpmap, afterLead_append,
      takeWhile_all_append Char.isDigit _ hdigits hsp,
      dropWhile_all_append Char.isDigit _ hdigits hsp,
      if_neg (natToChars_ne_nil pl),
      takeWhile_all_append isCodecChar _ hcodec hslash,
      dropWhile_all_append isCodecChar _ hcodec hslash,
      takeWhile_all_append Char.isDigit _ (natToChars_all_digit rate) hslashd,
      dropWhile_all_append Char.isDigit _ (natToChars_all_digit rate) hslashd,
      if_neg (natToChars_ne_nil rate),
      charsToNat_natToChars]

/-- A written fmtp line parses back to the entry it was written from. -/
theorem parseFmtp_writeFmtp (f : FmtpEntry) : parseFmtp (writeFmtp f) = some f := by
  obtain ⟨pl, config⟩ := f
  have hdigits := natToChars_all_digit pl
  have hsp : Char.isDigit ' ' = false := by decide
  have hw : writeFmtp ⟨pl, config⟩ = fmtpLead ++ (natToChars pl ++ ' ' :: config) := by
    simp [writeFmtp, List.append_assoc]
  rw [hw]
  simp only [parseFmtp, afterLead_append,
    takeWhile_all_append Char.isDigit config hdigits hsp,
    dropWhile_all_append Char.isDigit config hdigits hsp,
    if_neg (natToChars_ne_nil pl),
    charsToNat_natToChars]

/-- A written `m=` line parses back to the media description's own fields,
provided the type and protocol contain no space. -/
theorem parseMLine_writeMLine (m : MediaDesc) (ht : ' ' ∉ m.type)
    (hpr : ' ' ∉ m.protocol) :
    parseMLine (writeMLine m) =
      some ⟨m.type, m.port, m.protocol, m.payloads, [], [], none, []⟩ := by
  have hc : natToChars m.port ≠ [] ∧ (natToChars m.port).all Char.isDigit = true :=
    ⟨natToChars_ne_nil m.port, List.all_eq_true.mpr (natToChars_all_digit m.port)⟩
  rw [writeMLine_shape]
  simp only [parseMLine, afterLead_append,
    splitOnChar_append_cons _ ht,
    splitOnChar_append_cons _ (natToChars_no_space m.port),
    splitOnChar_append_cons _ hpr,
    joinChar_splitOnChar, charsToNat_natToChars]
  rw [if_pos hc]

theorem applyAttrs_append (m : MediaDesc) (a b : List (List Char)) :
    applyAttrs m (a ++ b) = applyAttrs (applyAttrs m a) b :=
  List.foldl_append _ _ _ _

theorem applyAttrs_rtpSegment (es : List RtpEntry) :
    ∀ m : MediaDesc, (∀ e ∈ es, WFrtp e) →
      applyAttrs m (es.map writeRtp) = { m with rtp := m.rtp ++ es } := by
  induction es with
  | nil => intro m _; simp [applyAttrs]
  | cons e es ih =>
    intro m hwf
    have he := (hwf e (List.mem_cons_self e es)).1
    simp only [List.map_cons, applyAttrs, List.foldl_cons]
    have hstep : classifyInto m (writeRtp e) = { m with rtp := m.rtp ++ [e] } := by
      rw [classifyInto, parseRtpmap_writeRtp e he]
    rw [hstep]
    have := ih { m with rtp := m.rtp ++ [e] }
      (fun x hx => hwf x (List.mem_cons_of_mem e hx))
    simp only [applyAttrs] at this
    rw [this]
    simp

theorem applyAttrs_fmtpSegment (fs : List FmtpEntry) :
    ∀ m : MediaDesc,
      applyAttrs m (fs.map writeFmtp) = { m with fmtp := m.fmtp ++ fs } := by
  induction fs with
  | nil => intro m; simp [applyAttrs]
  | cons f fs ih =>
    intro m
    simp only [List.map_cons, applyAttrs, List.foldl_cons]
    have hstep : classifyInto m (writeFmtp f) = { m with fmtp := m.fmtp ++ [f] } := by
      rw [classifyInto, parseRtpmap_fmtpLine f, parseFmtp_writeFmtp f]
    rw [hstep]
    have := ih { m with fmtp := m.fmtp ++ [f] }
    simp only [applyAttrs] at this
    rw [this]
    simp

theorem applyAttrs_rtcpLine (m : MediaDesc) (r : List Char) :
    applyAttrs m [rtcpLead ++ r] = { m with rtcp := some r } := by
  simp only [applyAttrs, List.foldl_cons, List.foldl_nil]
  rw [classifyInto, parseRtpmap_rtcpLine, parseFmtp_rtcpLine, afterLead_append]

theorem applyAttrs_othersSegment (os : List (List Char)) :
    ∀ m : MediaDesc, (∀ o ∈ os, WFother o) →
      applyAttrs m os = { m with others := m.others ++ os } := by
  induction os with
  | nil => intro m _; simp [applyAttrs]
  | cons o os ih =>
    intro m hwf
    obtain ⟨-, -, h1, h2, h3⟩ := hwf o (List.mem_cons_self o os)
    simp only [applyAttrs, List.foldl_cons]
    have hstep : classifyInto m o = { m with others := m.others ++ [o] } := by
      rw [classifyInto, h1, h2, h3]
    rw [hstep]
    have := ih { m with others := m.others ++ [o] }
      (fun x hx => hwf x (List.mem_cons_of_mem o hx))
    simp only [applyAttrs] at this
    rw [this]
    simp

theorem writeMedia_eq (m : MediaDesc) :
    writeMedia m = writeMLine m :: attrLines m := rfl

/-- Replaying the written attribute lines over the bare `m=` parse yields
the media description back. -/
theorem applyAttrs_attrLines (m : MediaDesc) (hwf : WFmedia m) :
    applyAttrs ⟨m.type, m.port, m.protocol, m.payloads, [], [], none, []⟩
      (attrLines m) = m := by
  obtain ⟨-, -, -, -, -, hrtp, -, -, hothers⟩ := hwf
  rw [attrLines, applyAttrs_append, applyAttrs_append, applyAttrs_append]
  rw [applyAttrs_rtpSegment m.rtp _ hrtp]
  rw [applyAttrs_fmtpSegment m.fmtp _]
  match hrc : m.rtcp with
  | some r =>
    rw [applyAttrs_rtcpLine]
    rw [applyAttrs_othersSegment m.others _ hothers]
    simp [← hrc]
  | none =>
    show applyAttrs (applyAttrs _ []) m.others = m
    rw [show applyAttrs
        ({ type := m.type, port := m.port, protocol := m.protocol, payloads := m.payloads,
           rtp := [] ++ m.rtp, fmtp := [] ++ m.fmtp, rtcp := none, others := [] } : MediaDesc) [] =
        { type := m.type, port := m.port, protocol := m.protocol, payloads := m.payloads,
          rtp := [] ++ m.rtp, fmtp := [] ++ m.fmtp, rtcp := none, others := [] } from rfl]
    rw [applyAttrs_othersSegment m.others _ hothers]
    simp [hrc.symm]

theorem attrLines_not_mline (m : MediaDesc) (hwf : WFmedia m) :
    ∀ l ∈ attrLines m, isMLine l = false := by
  intro l hl
  rw [attrLines] at hl
  rcases List.mem_append.mp hl with hl1 | hlo
  · rcases List.mem_append.mp hl1 with hl2 | hlr
    · rcases List.mem_append.mp hl2 with hle | hlf
      · obtain ⟨e, -, rfl⟩ := List.mem_map.mp hle
        exact isMLine_writeRtp e
      · obtain ⟨f, -, rfl⟩ := List.mem_map.mp hlf
        exact isMLine_writeFmtp f
    · match hrc : m.rtcp with
      | some r =>
        rw [hrc] at hlr
        rcases List.mem_singleton.mp hlr with rfl
        exact isMLine_rtcpLine r
      | none =>
        rw [hrc] at hlr
        exact absurd hlr (List.not_mem_nil l)
  · exact (hwf.2.2.2.2.2.2.2.2 l hlo).2.1

/-- The attribute lines of a well-formed media description are consumed
by `takeWhile` up to the next `m=` line. -/
theorem attr_flatten_split (m : MediaDesc) (ms : List MediaDesc) (hm : WFmedia m) :
    (attrLines m ++ (List.map writeMedia ms).flatten).takeWhile
        (fun x => !isMLine x) = attrLines m ∧
      (attrLines m ++ (List.map writeMedia ms).flatten).dropWhile
        (fun x => !isMLine x) = (List.map writeMedia ms).flatten := by
  have hnm : ∀ l ∈ attrLines m, (fun x => !isMLine x) l = true := by
    intro l hl
    simp [attrLines_not_mline m hm l hl]
  match ms with
  | [] =>
    constructor <;>
      simp [takeWhile_eq_self_of_all _ hnm, dropWhile_eq_nil_of_all _ hnm]
  | m' :: ms' =>
    have hfirst : (fun x => !isMLine x) (writeMLine m') = false := by
      simp [isMLine_writeMLine]
    have hsh : (List.map writeMedia (m' :: ms')).flatten =
        writeMLine m' :: (attrLines m' ++ (List.map writeMedia ms').flatten) := by
      simp [writeMedia_eq]
    rw [hsh]
    exact ⟨takeWhile_all_append _ _ hnm hfirst, dropWhile_all_append _ _ hnm hfirst⟩

/-- Parsing the written blocks of well-formed media descriptions gives
them back. -/
theorem parseBlocks_writeMedia (ms : List MediaDesc)
    (hwf : ∀ m ∈ ms, WFmedia m) :
    parseBlocks (ms.map writeMedia).flatten = some ms := by
  induction ms with
  | nil => simp [parseBlocks_nil]
  | cons m ms ih =>
    have hm := hwf m (List.mem_cons_self m ms)
    have hrest := fun x hx => hwf x (List.mem_cons_of_mem m hx)
    have hsh : ((m :: ms).map writeMedia).flatten =
        writeMLine m :: (attrLines m ++ (ms.map writeMedia).flatten) := by
      simp [writeMedia_eq]
    rw [hsh, parseBlocks_cons]
    rw [(attr_flatten_split m ms hm).2, (attr_flatten_split m ms hm).1]
    rw [ih hrest]
    simp only [parseMLine_writeMLine m hm.1 hm.2.1, applyAttrs_attrLines m hm]

theorem writeLines_eq (q : SdpSession) :
    writeLines q = q.prelude ++ (q.media.map writeMedia).flatten := rfl

/-- The prelude lines of a well-formed session are consumed by `takeWhile`
up to the first `m=` line. -/
theorem prelude_flatten_split (pre : List (List Char)) (ms : List MediaDesc)
    (hpre : ∀ l ∈ pre, isMLine l = false) :
    (pre ++ (List.map writeMedia ms).flatten).takeWhile
        (fun x => !isMLine x) = pre ∧
      (pre ++ (List.map writeMedia ms).flatten).dropWhile
        (fun x => !isMLine x) = (List.map writeMedia ms).flatten := by
  have hnm : ∀ l ∈ pre, (fun x => !isMLine x) l = true := by
    intro l hl
    simp [hpre l hl]
  match ms with
  | [] =>
    constructor <;>
      simp [takeWhile_eq_self_of_all _ hnm, dropWhile_eq_nil_of_all _ hnm]
  | m' :: ms' =>
    have hfirst : (fun x => !isMLine x) (writeMLine m') = false := by
      simp [isMLine_writeMLine]
    have hsh : (List.map writeMedia (m' :: ms')).flatten =
        writeMLine m' :: (attrLines m' ++ (List.map writeMedia ms').flatten) := by
      simp [writeMedia_eq]
    rw [hsh]
    exact ⟨takeWhile_all_append _ _ hnm hfirst, dropWhile_all_append _ _ hnm hfirst⟩

/-- Parsing the written lines of a well-formed session gives it back. -/
theorem parseLines_writeLines (q : SdpSession) (hwf : WFsession q) :
    parseLines (writeLines q) = some q := by
  obtain ⟨hpre, hmedia⟩ := hwf
  rw [parseLines, writeLines_eq]
  rw [(prelude_flatten_split q.prelude q.media fun l hl => (hpre l hl).2).2,
    (prelude_flatten_split q.prelude q.media fun l hl => (hpre l hl).2).1]
  rw [parseBlocks_writeMedia q.media hmedia]
  simp

theorem stripCR_append_cr (l : List Char) : stripCR (l ++ ['\r']) = l := by
  rw [stripCR, if_pos (List.getLast?_concat l), List.dropLast_concat]

theorem lineJoin_cons (l : List Char) (ls : List (List Char)) :
    lineJoin (l :: ls) = l ++ '\r' :: '\n' :: lineJoin ls := by
  simp [lineJoin, List.append_assoc]

/-- Splitting the CRLF-joined lines recovers them, provided every line is
non-empty and free of line breaks. -/
theorem lineSplit_lineJoin (ls : List (List Char))
    (hwf : ∀ l ∈ ls, lineOK l) : lineSplit (lineJoin ls) = ls := by
  induction ls with
  | nil => rfl
  | cons l ls ih =>
    obtain ⟨hne, hnl⟩ := hwf l (List.mem_cons_self l ls)
    have hnl' : '\n' ∉ l ++ ['\r'] := by
      intro h
      rcases List.mem_append.mp h with h | h
      · exact hnl h
      · simp at h
    have hsh : lineJoin (l :: ls) = (l ++ ['\r']) ++ '\n' :: lineJoin ls := by
      rw [lineJoin_cons]
      simp [List.append_assoc]
    rw [hsh, lineSplit, splitOnChar_append_cons _ hnl']
    simp only [List.map_cons, List.filter_cons, stripCR_append_cr]
    rw [if_pos (by simp [hne])]
    have := ih (fun x hx => hwf x (List.mem_cons_of_mem l hx))
    rw [lineSplit] at this
    rw [this]

theorem noNL_append {a b : List Char} (ha : '\n' ∉ a) (hb : '\n' ∉ b) :
    '\n' ∉ a ++ b := by
  intro h
  rcases List.mem_append.mp h with h | h
  · exact ha h
  · exact hb h

theorem noNL_cons {c : Char} {xs : List Char} (hc : c ≠ '\n') (hxs : '\n' ∉ xs) :
    '\n' ∉ c :: xs := by
  intro h
  rcases List.mem_cons.mp h with h | h
  · exact hc h.symm
  · exact hxs h

theorem noNL_of_codec {l : List Char} (h : l.all isCodecChar = true) : '\n' ∉ l := by
  intro hm
  have := List.all_eq_true.mp h _ hm
  simp [isCodecChar] at this

theorem writeRtp_lineOK (e : RtpEntry) (hwf : WFrtp e) : lineOK (writeRtp e) := by
  obtain ⟨pl, codec, rateEnc⟩ := e
  obtain ⟨hcodec, henc⟩ := hwf
  constructor
  · rw [writeRtp]
    have h1 : rtpmapLead = 'a' :: ['=','r','t','p','m','a','p',':'] := rfl
    rw [h1]
    simp
  · rw [writeRtp]
    have hlead : '\n' ∉ rtpmapLead := by decide
    refine noNL_append (noNL_append (noNL_append hlead (natToChars_no_newline pl)) ?_) ?_
    · exact noNL_cons (by decide) (noNL_of_codec hcodec)
    · match hre : rateEnc with
      | none => simp
      | some (rate, none) =>
        exact noNL_cons (by decide) (natToChars_no_newline rate)
      | some (rate, some enc) =>
        refine noNL_cons (by decide)
          (noNL_append (natToChars_no_newline rate) (noNL_cons (by decide) ?_))
        exact henc (rate, some enc) enc rfl rfl

theorem writeFmtp_lineOK (f : FmtpEntry) (hnl : '\n' ∉ f.config) :
    lineOK (writeFmtp f) := by
  obtain ⟨pl, config⟩ := f
  constructor
  · rw [writeFmtp]
    have h1 : fmtpLead = 'a' :: ['=','f','m','t','p',':'] := rfl
    rw [h1]
    simp
  · rw [writeFmtp]
    have hlead : '\n' ∉ fmtpLead := by decide
    exact noNL_append (noNL_append hlead (natToChars_no_newline pl))
      (noNL_cons (by decide) hnl)

theorem rtcpLine_lineOK (r : List Char) (hnl : '\n' ∉ r) :
    lineOK (rtcpLead ++ r) := by
  constructor
  · have h1 : rtcpLead = 'a' :: ['=','r','t','c','p',':'] := rfl
    rw [h1]
    simp
  · exact noNL_append (by decide) hnl

theorem writeMLine_lineOK (m : MediaDesc) (hwf : WFmedia m) :
    lineOK (writeMLine m) := by
  obtain ⟨-, -, ht, hp, hpl, -⟩ := hwf
  constructor
  · rw [writeMLine_shape]
    have h1 : mLead = 'm' :: ['='] := rfl
    rw [h1]
    simp
  · rw [writeMLine_shape]
    refine noNL_append (by decide) (noNL_append ht (noNL_cons (by decide) ?_))
    refine noNL_append (natToChars_no_newline m.port) (noNL_cons (by decide) ?_)
    exact noNL_append hp (noNL_cons (by decide) hpl)

theorem writeMedia_lineOK (m : MediaDesc) (hwf : WFmedia m) :
    ∀ l ∈ writeMedia m, lineOK l := by
  intro l hl
  rw [writeMedia_eq] at hl
  rcases List.mem_cons.mp hl with rfl | hl
  · exact writeMLine_lineOK m hwf
  · rw [attrLines] at hl
    rcases List.mem_append.mp hl with hl1 | hlo
    · rcases List.mem_append.mp hl1 with hl2 | hlr
      · rcases List.mem_append.mp hl2 with hle | hlf
        · obtain ⟨e, he, rfl⟩ := List.mem_map.mp hle
          exact writeRtp_lineOK e (hwf.2.2.2.2.2.1 e he)
        · obtain ⟨f, hf, rfl⟩ := List.mem_map.mp hlf
          exact writeFmtp_lineOK f (hwf.2.2.2.2.2.2.1 f hf)
      · match hrc : m.rtcp with
        | some r =>
          rw [hrc] at hlr
          rcases List.mem_singleton.mp hlr with rfl
          exact rtcpLine_lineOK r (hwf.2.2.2.2.2.2.2.1 r hrc)
        | none =>
          rw [hrc] at hlr
          exact absurd hlr (List.not_mem_nil l)
    · exact (hwf.2.2.2.2.2.2.2.2 l hlo).1

theorem writeLines_lineOK (q : SdpSession) (hwf : WFsession q) :
    ∀ l ∈ writeLines q, lineOK l := by
  intro l hl
  rw [writeLines_eq] at hl
  rcases List.mem_append.mp hl with hl | hl
  · exact (hwf.1 l hl).1
  · obtain ⟨b, hb, hlb⟩ := List.mem_flatten.mp hl
    obtain ⟨m, hm, rfl⟩ := List.mem_map.mp hb
    exact writeMedia_lineOK m (hwf.2 m hm) l hlb

/-- Round trip at the string level: parsing the written form of a
well-formed session gives the session back. -/
theorem parseSdp_writeSdp (q : SdpSession) (hwf : WFsession q) :
    parseSdp (writeSdp q) = some q := by
  have hdata : (writeSdp q).data = lineJoin (writeLines q) := rfl
  rw [parseSdp, hdata, lineSplit_lineJoin _ (writeLines_lineOK q hwf)]
  exact parseLines_writeLines q hwf

theorem stripCR_subset {x : Char} {l : List Char} (h : x ∈ stripCR l) : x ∈ l := by
  rw [stripCR] at h
  split at h
  · exact List.dropLast_subset l h
  · exact h

theorem lineSplit_lineOK (s : List Char) : ∀ l ∈ lineSplit s, lineOK l := by
  intro l hl
  rw [lineSplit] at hl
  obtain ⟨hmem, hne⟩ := List.mem_filter.mp hl
  obtain ⟨p, hp, rfl⟩ := List.mem_map.mp hmem
  refine ⟨of_decide_eq_true hne, fun hnl => ?_⟩
  exact not_mem_of_mem_splitOnChar hp (stripCR_subset hnl)

theorem mem_of_dropWhile_cons {p : List Char → Bool} {a b : List (List Char)}
    {c x : List Char} (heq : a.dropWhile p = c :: b) (hx : x ∈ b) : x ∈ a := by
  refine mem_of_mem_dropWhile (show x ∈ a.dropWhile p from ?_)
  rw [heq]
  exact List.mem_cons_of_mem c hx

theorem mem_of_dropWhileChar_cons {p : Char → Bool} {a b : List Char}
    {c x : Char} (heq : a.dropWhile p = c :: b) (hx : x ∈ b) : x ∈ a := by
  refine mem_of_mem_dropWhile (show x ∈ a.dropWhile p from ?_)
  rw [heq]
  exact List.mem_cons_of_mem c hx

/-- The fields of a parsed `m=` line are within the grammar's alphabets. -/
theorem parseMLine_WF {l : List Char} {m : MediaDesc}
    (h : parseMLine l = some m) (hnl : '\n' ∉ l) : WFmedia m := by
  rw [parseMLine] at h
  split at h
  · exact absurd h (by simp)
  · rename_i content heq
    split at h
    rotate_left
    · exact absurd h (by simp)
    rename_i t p proto rest hsp
    split at h
    rotate_left
    · exact absurd h (by simp)
    rename_i hcond
    injection h with h
    subst h
    have hmem : ∀ x, x ∈ content → x ∈ l := mem_of_afterLead heq
    have htm : t ∈ splitOnChar ' ' content := by
      rw [hsp]; exact List.mem_cons_self _ _
    have hpm : proto ∈ splitOnChar ' ' content := by
      rw [hsp]
      exact List.mem_cons_of_mem _ (List.mem_cons_of_mem _ (List.mem_cons_self _ _))
    refine ⟨not_mem_of_mem_splitOnChar htm, not_mem_of_mem_splitOnChar hpm,
      ?_, ?_, ?_, by simp, by simp, by simp, by simp⟩
    · exact fun hx => hnl (hmem _ (mem_of_mem_splitOnChar htm hx))
    · exact fun hx => hnl (hmem _ (mem_of_mem_splitOnChar hpm hx))
    · intro hx
      rcases mem_joinChar hx with hc | ⟨piece, hpc, hxp⟩
      · exact absurd hc (by decide)
      · have hpm' : piece ∈ splitOnChar ' ' content := by
          rw [hsp]
          exact List.mem_cons_of_mem _ (List.mem_cons_of_mem _ (List.mem_cons_of_mem _ hpc))
        exact hnl (hmem _ (mem_of_mem_splitOnChar hpm' hxp))

/-- A parsed rtpmap entry is within the grammar's alphabets. -/
theorem parseRtpmap_WF {l : List Char} {e : RtpEntry}
    (h : parseRtpmap l = some e) (hnl : '\n' ∉ l) : WFrtp e := by
  rw [parseRtpmap] at h
  split at h
  · exact absurd h (by simp)
  · rename_i r heq
    have hrsub : ∀ x, x ∈ r → x ∈ l := mem_of_afterLead heq
    split at h
    · exact absurd h (by simp)
    · split at h
      rotate_left
      · exact absurd h (by simp)
      rename_i r2 heq2
      have hr2 : ∀ x, x ∈ r2 → x ∈ l := by
        intro x hx
        exact hrsub x (mem_of_dropWhileChar_cons heq2 hx)
      have hcodec : (r2.takeWhile isCodecChar).all isCodecChar = true :=
        List.all_eq_true.mpr fun x hx => List.mem_takeWhile_imp hx
      split at h
      · injection h with h
        subst h
        exact ⟨hcodec, by simp⟩
      · rename_i r4 heq3
        have hr4 : ∀ x, x ∈ r4 → x ∈ l := by
          intro x hx
          exact hr2 x (mem_of_dropWhileChar_cons heq3 hx)
        split at h
        · exact absurd h (by simp)
        · split at h
          · injection h with h
            subst h
            refine ⟨hcodec, ?_⟩
            intro re enc hre henc
            injection hre with hre
            subst hre
            simp at henc
          · rename_i r6 heq4
            injection h with h
            subst h
            refine ⟨hcodec, ?_⟩
            intro re enc hre henc
            injection hre with hre
            subst hre
            simp only [Option.some.injEq] at henc
            subst henc
            intro hx
            exact hnl (hr4 _ (mem_of_dropWhileChar_cons heq4 hx))
          · exact absurd h (by simp)
      · exact absurd h (by simp)

/-- A parsed fmtp entry's parameters come from the line itself. -/
theorem parseFmtp_WF {l : List Char} {f : FmtpEntry}
    (h : parseFmtp l = some f) (hnl : '\n' ∉ l) : '\n' ∉ f.config := by
  rw [parseFmtp] at h
  split at h
  · exact absurd h (by simp)
  · rename_i r heq
    have hrsub : ∀ x, x ∈ r → x ∈ l := mem_of_afterLead heq
    split at h
    · exact absurd h (by simp)
    · split at h
      rotate_left
      · exact absurd h (by simp)
      rename_i cfg heq2
      injection h with h
      subst h
      intro hx
      exact hnl (hrsub _ (mem_of_dropWhileChar_cons heq2 hx))

theorem classifyInto_WF {m : MediaDesc} {l : List Char} (hm : WFmedia m)
    (hok : lineOK l) (hml : isMLine l = false) : WFmedia (classifyInto m l) := by
  obtain ⟨h1, h2, h3, h4, h5, h6, h7, h8, h9⟩ := hm
  rw [classifyInto]
  split
  · rename_i e heq
    refine ⟨h1, h2, h3, h4, h5, ?_, h7, h8, h9⟩
    intro x hx
    rcases List.mem_append.mp hx with hx | hx
    · exact h6 x hx
    · rcases List.mem_singleton.mp hx with rfl
      exact parseRtpmap_WF heq hok.2
  · split
    · rename_i f heq
      refine ⟨h1, h2, h3, h4, h5, h6, ?_, h8, h9⟩
      intro x hx
      rcases List.mem_append.mp hx with hx | hx
      · exact h7 x hx
      · rcases List.mem_singleton.mp hx with rfl
        exact parseFmtp_WF heq hok.2
    · split
      · rename_i r heq
        refine ⟨h1, h2, h3, h4, h5, h6, h7, ?_, h9⟩
        intro r' hr'
        injection hr' with hr'
        subst hr'
        intro hx
        exact hok.2 (mem_of_afterLead heq _ hx)
      · refine ⟨h1, h2, h3, h4, h5, h6, h7, h8, ?_⟩
        intro o ho
        rcases List.mem_append.mp ho with ho | ho
        · exact h9 o ho
        · rcases List.mem_singleton.mp ho with rfl
          refine ⟨hok, hml, ?_, ?_, ?_⟩ <;> assumption

theorem applyAttrs_WF {attrs : List (List Char)} :
    ∀ {m : MediaDesc}, WFmedia m →
      (∀ l ∈ attrs, lineOK l ∧ isMLine l = false) →
      WFmedia (applyAttrs m attrs) := by
  induction attrs with
  | nil => intro m hm _; exact hm
  | cons l ls ih =>
    intro m hm hok
    obtain ⟨hlok, hlml⟩ := hok l (List.mem_cons_self l ls)
    exact ih (classifyInto_WF hm hlok hlml)
      (fun x hx => hok x (List.mem_cons_of_mem l hx))

theorem parseBlocksAux_WF : ∀ (fuel : Nat) (lines : List (List Char))
    (ms : List MediaDesc), parseBlocksAux fuel lines = some ms →
    (∀ l ∈ lines, lineOK l) → ∀ m ∈ ms, WFmedia m := by
  intro fuel
  induction fuel with
  | zero =>
    intro lines ms h hok
    match lines with
    | [] =>
      injection h with h
      subst h
      simp
    | _ :: _ => exact absurd h (by simp [parseBlocksAux])
  | succ f ih =>
    intro lines ms h hok
    match lines with
    | [] =>
      injection h with h
      subst h
      simp
    | l :: ls =>
      simp only [parseBlocksAux] at h
      split at h
      · exact absurd h (by simp)
      · rename_i m0 heqm
        split at h
        · exact absurd h (by simp)
        · rename_i ms' heqr
          injection h with h
          subst h
          intro m hm
          rcases List.mem_cons.mp hm with rfl | hm
          · refine applyAttrs_WF (parseMLine_WF heqm (hok l (List.mem_cons_self l ls)).2) ?_
            intro x hx
            refine ⟨hok x (List.mem_cons_of_mem l (mem_of_mem_takeWhile hx)), ?_⟩
            have := List.mem_takeWhile_imp hx
            simpa using this
          · refine ih _ ms' heqr ?_ m hm
            intro x hx
            exact hok x (List.mem_cons_of_mem l (mem_of_mem_dropWhile hx))

theorem parseLines_WF {lines : List (List Char)} {q : SdpSession}
    (h : parseLines lines = some q) (hok : ∀ l ∈ lines, lineOK l) :
    WFsession q := by
  rw [parseLines] at h
  match heq : parseBlocks (lines.dropWhile fun l => !isMLine l) with
  | none =>
    rw [heq] at h
    exact absurd h (by simp)
  | some ms =>
    rw [heq] at h
    simp only [Option.map_some'] at h
    injection h with h
    subst h
    constructor
    · intro l hl
      refine ⟨hok l (mem_of_mem_takeWhile hl), ?_⟩
      have := List.mem_takeWhile_imp hl
      simpa using this
    · intro m hm
      refine parseBlocksAux_WF _ _ ms heq ?_ m hm
      intro x hx
      exact hok x (mem_of_mem_dropWhile hx)

/-- Every successful parse yields a well-formed session. -/
theorem parseSdp_WF {s : String} {q : SdpSession} (h : parseSdp s = some q) :
    WFsession q :=
  parseLines_WF h (lineSplit_lineOK s.data)

theorem rewriteMedia_audio (m : MediaDesc) (h : m.type = "audio".data) :
    rewriteMedia m =
      { m with
        payloads := joinChar ' ' (allowedPayloads.map natToChars),
        rtp :=
          if ((m.rtp.filter fun r => allowedPayloads.contains r.payload).find?
              (fun r => r.payload == 101)).isSome then
            m.rtp.filter fun r => allowedPayloads.contains r.payload
          else
            (m.rtp.filter fun r => allowedPayloads.contains r.payload) ++ [teleEventEntry],
        fmtp :=
          if ((m.fmtp.filter fun f => allowedPayloads.contains f.payload).find?
              (fun f => f.payload == 101)).isSome then
            m.fmtp.filter fun f => allowedPayloads.contains f.payload
          else
            (m.fmtp.filter fun f => allowedPayloads.contains f.payload) ++ [teleEventFmtp],
        rtcp := none } := by
  rw [rewriteMedia, if_pos h]
  rfl

theorem rewriteMedia_not_audio (m : MediaDesc) (h : ¬m.type = "audio".data) :
    rewriteMedia m = m := by
  rw [rewriteMedia, if_neg h]

theorem rewriteMedia_WF {m : MediaDesc} (hm : WFmedia m) :
    WFmedia (rewriteMedia m) := by
  obtain ⟨h1, h2, h3, h4, h5, h6, h7, h8, h9⟩ := hm
  by_cases h : m.type = "audio".data
  · rw [rewriteMedia_audio m h]
    refine ⟨h1, h2, h3, h4,
      (by decide : '\n' ∉ joinChar ' ' (allowedPayloads.map natToChars)), ?_, ?_,
      by simp, h9⟩
    · intro e he
      simp only at he
      split at he
      · exact h6 e (List.mem_filter.mp he).1
      · rcases List.mem_append.mp he with he | he
        · exact h6 e (List.mem_filter.mp he).1
        · rcases List.mem_singleton.mp he with rfl
          refine ⟨by decide, ?_⟩
          intro re enc hre henc
          injection hre with hre
          subst hre
          simp at henc
    · intro f hf
      simp only at hf
      split at hf
      · exact h7 f (List.mem_filter.mp hf).1
      · rcases List.mem_append.mp hf with hf | hf
        · exact h7 f (List.mem_filter.mp hf).1
        · rcases List.mem_singleton.mp hf with rfl
          decide
  · rw [rewriteMedia_not_audio m h]
    exact ⟨h1, h2, h3, h4, h5, h6, h7, h8, h9⟩

theorem rewriteSession_WF {q : SdpSession} (hq : WFsession q) :
    WFsession (rewriteSession q) := by
  obtain ⟨hpre, hmedia⟩ := hq
  refine ⟨hpre, ?_⟩
  intro m hm
  obtain ⟨m0, hm0, rfl⟩ := List.mem_map.mp hm
  exact rewriteMedia_WF (hmedia m0 hm0)

theorem rewriteMedia_rtp_allowed (m : MediaDesc) (h : m.type = "audio".data) :
    ∀ e ∈ (rewriteMedia m).rtp, allowedPayloads.contains e.payload = true := by
  intro e he
  rw [rewriteMedia_audio m h] at he
  simp only at he
  split at he
  · exact (List.mem_filter.mp he).2
  · rcases List.mem_append.mp he with he | he
    · exact (List.mem_filter.mp he).2
    · rcases List.mem_singleton.mp he with rfl
      decide

theorem rewriteMedia_rtp_has101 (m : MediaDesc) (h : m.type = "audio".data) :
    ((rewriteMedia m).rtp.find? (fun r => r.payload == 101)).isSome = true := by
  rw [rewriteMedia_audio m h]
  simp only
  split
  · assumption
  · refine List.find?_isSome.mpr ⟨teleEventEntry, ?_, by decide⟩
    exact List.mem_append_right _ (List.mem_singleton.mpr rfl)

theorem rewriteMedia_fmtp_allowed (m : MediaDesc) (h : m.type = "audio".data) :
    ∀ f ∈ (rewriteMedia m).fmtp, allowedPayloads.contains f.payload = true := by
  intro f hf
  rw [rewriteMedia_audio m h] at hf
  simp only at hf
  split at hf
  · exact (List.mem_filter.mp hf).2
  · rcases List.mem_append.mp hf with hf | hf
    · exact (List.mem_filter.mp hf).2
    · rcases List.mem_singleton.mp hf with rfl
      decide

theorem rewriteMedia_fmtp_has101 (m : MediaDesc) (h : m.type = "audio".data) :
    ((rewriteMedia m).fmtp.find? (fun f => f.payload == 101)).isSome = true := by
  rw [rewriteMedia_audio m h]
  simp only
  split
  · assumption
  · refine List.find?_isSome.mpr ⟨teleEventFmtp, ?_, by decide⟩
    exact List.mem_append_right _ (List.mem_singleton.mpr rfl)

/-- The audio transformation is idempotent on a single media description. -/
theorem rewriteMedia_idem (m : MediaDesc) :
    rewriteMedia (rewriteMedia m) = rewriteMedia m := by
  by_cases h : m.type = "audio".data
  · have hty : (rewriteMedia m).type = "audio".data := by
      rw [rewriteMedia_audio m h]
      exact h
    have hpay : (rewriteMedia m).payloads = joinChar ' ' (allowedPayloads.map natToChars) := by
      rw [rewriteMedia_audio m h]
    have hrtcp : (rewriteMedia m).rtcp = none := by
      rw [rewriteMedia_audio m h]
    have hfr : (rewriteMedia m).rtp.filter (fun r => allowedPayloads.contains r.payload) =
        (rewriteMedia m).rtp :=
      List.filter_eq_self.mpr (rewriteMedia_rtp_allowed m h)
    have hff : (rewriteMedia m).fmtp.filter (fun f => allowedPayloads.contains f.payload) =
        (rewriteMedia m).fmtp :=
      List.filter_eq_self.mpr (rewriteMedia_fmtp_allowed m h)
    rw [rewriteMedia_audio _ hty, hfr, hff,
      if_pos (rewriteMedia_rtp_has101 m h), if_pos (rewriteMedia_fmtp_has101 m h),
      ← hpay, ← hrtcp]
  · rw [rewriteMedia_not_audio m h, rewriteMedia_not_audio m h]

theorem rewriteSession_idem (q : SdpSession) :
    rewriteSession (rewriteSession q) = rewriteSession q := by
  rw [rewriteSession, rewriteSession]
  simp only [List.map_map]
  congr 1
  exact List.map_congr_left fun m _ => rewriteMedia_idem m

theorem payloads_value :
    joinChar ' ' (allowedPayloads.map natToChars) = "0 8 101".data := by decide

/-- C1 counterexample: the claim asserts that after `rewriteSdp` the format
parameter for payload 101 equals "0-16".  On an offer that already carries
`a=fmtp:101 0-15`, the code keeps the existing entry (it only synthesizes
"0-16" when no fmtp entry for 101 exists), so the output's only audio fmtp
entry for payload 101 has configuration "0-15". -/
theorem claim1_counterexample :
    ¬ (∀ f ∈ audioFmtps (rewriteSdp c1ExampleSdp),
        f.payload = 101 → f.config = "0-16".data) := by decide

/-- C1 (amended): after `rewriteSdp`, every audio media description's
payload list is exactly "0 8 101"; every rtp entry outside {0, 8, 101} is
discarded and no rtp entry other than the synthesized telephone-event one
is added; an rtp entry for payload 101 exists, synthesized as
telephone-event/8000 when the input had none; every fmtp entry outside the
set is discarded; an fmtp entry for payload 101 exists, synthesized with
configuration "0-16" when the input had none (a pre-existing 101 entry is
preserved unchanged). -/
theorem claim1_amended (s : String) (q : SdpSession) (hp : parseSdp s = some q)
    (m : MediaDesc) (hm : m ∈ q.media) (haudio : m.type = "audio".data) :
    (rewriteMedia m).payloads = "0 8 101".data ∧
    (∀ e ∈ (rewriteMedia m).rtp, e.payload ∈ allowedPayloads) ∧
    (∀ e ∈ (rewriteMedia m).rtp, e = teleEventEntry ∨ e ∈ m.rtp) ∧
    (∃ e ∈ (rewriteMedia m).rtp, e.payload = 101) ∧
    ((∀ e ∈ m.rtp, ¬e.payload = 101) → teleEventEntry ∈ (rewriteMedia m).rtp) ∧
    (∀ f ∈ (rewriteMedia m).fmtp, f.payload ∈ allowedPayloads) ∧
    (∀ f ∈ (rewriteMedia m).fmtp, f = teleEventFmtp ∨ f ∈ m.fmtp) ∧
    (∃ f ∈ (rewriteMedia m).fmtp, f.payload = 101) ∧
    ((∀ f ∈ m.fmtp, ¬f.payload = 101) → teleEventFmtp ∈ (rewriteMedia m).fmtp) ∧
    rewriteMedia m ∈ (rewriteSession q).media := by
  refine ⟨?_, ?_, ?_, ?_, ?_, ?_, ?_, ?_, ?_, ?_⟩
  · rw [rewriteMedia_audio m haudio]
    exact payloads_value
  · intro e he
    have := rewriteMedia_rtp_allowed m haudio e he
    simpa using this
  · intro e he
    rw [rewriteMedia_audio m haudio] at he
    simp only at he
    split at he
    · exact Or.inr (List.mem_filter.mp he).1
    · rcases List.mem_append.mp he with he | he
      · exact Or.inr (List.mem_filter.mp he).1
      · exact Or.inl (List.mem_singleton.mp he)
  · obtain ⟨e, he, hbeq⟩ := List.find?_isSome.mp (rewriteMedia_rtp_has101 m haudio)
    exact ⟨e, he, by simpa using hbeq⟩
  · intro hnone
    rw [rewriteMedia_audio m haudio]
    simp only
    rw [if_neg ?_]
    · exact List.mem_append_right _ (List.mem_singleton.mpr rfl)
    · rw [List.find?_eq_none.mpr ?_]
      · simp
      · intro x hx
        simpa using hnone x (List.mem_filter.mp hx).1
  · intro f hf
    have := rewriteMedia_fmtp_allowed m haudio f hf
    simpa using this
  · intro f hf
    rw [rewriteMedia_audio m haudio] at hf
    simp only at hf
    split at hf
    · exact Or.inr (List.mem_filter.mp hf).1
    · rcases List.mem_append.mp hf with hf | hf
      · exact Or.inr (List.mem_filter.mp hf).1
      · exact Or.inl (List.mem_singleton.mp hf)
  · obtain ⟨f, hf, hbeq⟩ := List.find?_isSome.mp (rewriteMedia_fmtp_has101 m haudio)
    exact ⟨f, hf, by simpa using hbeq⟩
  · intro hnone
    rw [rewriteMedia_audio m haudio]
    simp only
    rw [if_neg ?_]
    · exact List.mem_append_right _ (List.mem_singleton.mpr rfl)
    · rw [List.find?_eq_none.mpr ?_]
      · simp
      · intro x hx
        simpa using hnone x (List.mem_filter.mp hx).1
  · exact List.mem_map_of_mem rewriteMedia hm

/-- Witness for C1 (amended) at a concrete audio-only offer with neither
an rtpmap nor an fmtp entry for 101: both entries are synthesized. -/
theorem claim1_witness :
    parseSdp c1WitnessSdp = some c1WitnessSession ∧
    (rewriteMedia c1WitnessMedia).payloads = "0 8 101".data ∧
    teleEventEntry ∈ (rewriteMedia c1WitnessMedia).rtp ∧
    teleEventFmtp ∈ (rewriteMedia c1WitnessMedia).fmtp := by
  have h := claim1_amended c1WitnessSdp c1WitnessSession (by decide)
    c1WitnessMedia (List.mem_cons_self _ _) (by decide)
  exact ⟨by decide, h.1,
    h.2.2.2.2.1 (by intro e he; exact absurd he (List.not_mem_nil e)),
    h.2.2.2.2.2.2.2.2.1 (by intro f hf; exact absurd hf (List.not_mem_nil f))⟩

/-- C6: `rewriteSdp` is idempotent — applying it to its own output yields
the same output. -/
theorem claim6_idempotent (x : String) :
    rewriteSdp (rewriteSdp x) = rewriteSdp x := by
  match hp : parseSdp x with
  | none =>
    have h1 : rewriteSdp x = x := by rw [rewriteSdp, hp]
    rw [h1]
    exact h1
  | some q =>
    have h1 : rewriteSdp x = writeSdp (rewriteSession q) := by rw [rewriteSdp, hp]
    have hq' : WFsession (rewriteSession q) := rewriteSession_WF (parseSdp_WF hp)
    have h2 : parseSdp (writeSdp (rewriteSession q)) = some (rewriteSession q) :=
      parseSdp_writeSdp _ hq'
    have h3 : rewriteSdp (writeSdp (rewriteSession q)) =
        writeSdp (rewriteSession (rewriteSession q)) := by
      rw [rewriteSdp, h2]
    rw [h1, h3, rewriteSession_idem]

/-- C7: on any parse failure `rewriteSdp` returns the original body
unchanged; as a total function it raises no fault. -/
theorem claim7_parse_failure (s : String) (h : parseSdp s = none) :
    rewriteSdp s = s := by
  rw [rewriteSdp, h]

/-- Witness for C7: a truncated `m=` line fails to parse and the body
passes through unchanged. -/
theorem claim7_witness :
    parseSdp "m=audio\r\n" = none ∧ rewriteSdp "m=audio\r\n" = "m=audio\r\n" :=
  ⟨by decide, claim7_parse_failure _ (by decide)⟩

/-- C2 evidence: the code's callback re-signs and resends on every 401/407
with no retry counter and no cap; over any number of consecutive
challenges the downstream send count grows by that number and nothing —
in particular no gateway-failure status — is relayed upstream. -/
theorem claim2_unbounded_retry (freshCnonce : String) (rs : SipResponse)
    (hst : rs.status = 401 ∨ rs.status = 407)
    (hch : (parseChallenge rs).isSome = true) :
    ∀ (k : Nat) (st : TxState),
      (txRun freshCnonce st (List.replicate k rs)).downstreamSends =
          st.downstreamSends + k ∧
        (txRun freshCnonce st (List.replicate k rs)).upstream = st.upstream := by
  obtain ⟨⟨realm, n⟩, hp⟩ := Option.isSome_iff_exists.mp hch
  intro k
  induction k with
  | zero => intro st; simp [txRun]
  | succ k ih =>
    intro st
    have hstep : txStep freshCnonce st rs =
        { st with session := updateAuthSession st.session n freshCnonce,
                  downstreamSends := st.downstreamSends + 1 } := by
      rw [txStep, defaultProxyCallback, if_pos hst, hp]
    have hrun : txRun freshCnonce st (List.replicate (k + 1) rs) =
        txRun freshCnonce (txStep freshCnonce st rs) (List.replicate k rs) := by
      rw [List.replicate_succ]
      rfl
    rw [hrun, hstep]
    obtain ⟨ihs, ihu⟩ := ih _
    refine ⟨?_, ?_⟩
    · rw [ihs]
      show st.downstreamSends + 1 + k = st.downstreamSends + (k + 1)
      omega
    · rw [ihu]

/-- Witness for C2: after the initial send (count 1), three consecutive
challenges — one past the recommended cap of 2 — produce three further
downstream sends and relay nothing upstream. -/
theorem claim2_witness :
    (txRun "cn1" ⟨⟨"", 0, ""⟩, 1, []⟩ (List.replicate 3 challenge401)).downstreamSends = 4 ∧
      (txRun "cn1" ⟨⟨"", 0, ""⟩, 1, []⟩ (List.replicate 3 challenge401)).upstream = [] := by
  have h := claim2_unbounded_retry "cn1" challenge401 (Or.inl rfl) (by decide) 3
    ⟨⟨"", 0, ""⟩, 1, []⟩
  exact ⟨h.1, h.2⟩

/-- C3: the digest session update increments the nonce count when the
stored nonce equals the challenge nonce (so the count strictly increases
while a nonce is reused), and otherwise adopts the new nonce, resets the
count to 1 and installs the freshly generated client nonce. -/
theorem claim3_nonce_update (s : AuthSession) (n freshCnonce : String) :
    (s.nonce = n →
      updateAuthSession s n freshCnonce = ⟨s.nonce, s.nc + 1, s.cnonce⟩ ∧
        s.nc < (updateAuthSession s n freshCnonce).nc) ∧
    (s.nonce ≠ n → updateAuthSession s n freshCnonce = ⟨n, 1, freshCnonce⟩) := by
  constructor
  · intro h
    rw [updateAuthSession, if_pos h]
    exact ⟨rfl, Nat.lt_succ_self _⟩
  · intro h
    rw [updateAuthSession, if_neg h]

/-- Witness for C3: a reused nonce advances the count 3 → 4; a new nonce
resets it to 1 and replaces the client nonce. -/
theorem claim3_witness :
    updateAuthSession ⟨"abc123", 3, "c0"⟩ "abc123" "c1" = ⟨"abc123", 4, "c0"⟩ ∧
      updateAuthSession ⟨"abc123", 3, "c0"⟩ "xyz789" "c1" = ⟨"xyz789", 1, "c1"⟩ :=
  ⟨((claim3_nonce_update ⟨"abc123", 3, "c0"⟩ "abc123" "c1").1 rfl).1,
    (claim3_nonce_update ⟨"abc123", 3, "c0"⟩ "xyz789" "c1").2 (by decide)⟩

/-- C4 evidence: on a 401/407 whose challenge cannot be parsed (missing
nonce or realm), `digest.signRequest` throws inside the response callback,
outside the `try`/`catch` of `onIncomingRequest`: the request is not
resent, but no server-error — indeed no response at all — is sent
upstream. -/
theorem claim4_unparsable_challenge (sess : AuthSession) (freshCnonce : String)
    (rs : SipResponse) (hst : rs.status = 401 ∨ rs.status = 407)
    (hch : parseChallenge rs = none) :
    defaultProxyCallback sess freshCnonce rs = .uncaughtFault := by
  rw [defaultProxyCallback, if_pos hst, hch]

/-- Witness for C4: a 401 whose challenge header lacks a nonce. -/
theorem claim4_witness :
    defaultProxyCallback ⟨"", 0, ""⟩ "cn"
      ⟨401, some ⟨some "sip.twilio.com", none⟩⟩ = .uncaughtFault :=
  claim4_unparsable_challenge _ _ _ (Or.inl rfl) (by decide)

theorem rewriteInvite_fields (cfg : GatewayConfig) (rq : SipRequest) :
    (rewriteInvite cfg rq).uri = destUri cfg ∧
    (rewriteInvite cfg rq).headers.fromHeader = rq.headers.fromHeader ∧
    (rewriteInvite cfg rq).headers.toHeader =
      some (match rq.headers.toHeader with
        | some t => { t with uri := destUri cfg }
        | none => ⟨destUri cfg, ""⟩) := by
  match hc : rq.content with
  | none => simp [rewriteInvite, hc]
  | some body =>
    by_cases hb : body = "" <;> simp [rewriteInvite, hc, hb]

/-- C5: an INVITE is forwarded downstream after rewriting; the rewrite sets
the request URI and the To-header URI to the configured destination
(creating the To header when absent) and leaves the From header
byte-identical. -/
theorem claim5_invite_rewrite (cfg : GatewayConfig) (rq : SipRequest)
    (h : rq.method = "INVITE") :
    onIncomingRequest cfg rq = .forwardInvite (rewriteInvite cfg rq) ∧
    (rewriteInvite cfg rq).uri = destUri cfg ∧
    (∃ t, (rewriteInvite cfg rq).headers.toHeader = some t ∧ t.uri = destUri cfg) ∧
    (rewriteInvite cfg rq).headers.fromHeader = rq.headers.fromHeader := by
  obtain ⟨hu, hf, ht⟩ := rewriteInvite_fields cfg rq
  refine ⟨by rw [onIncomingRequest, if_pos h], hu, ?_, hf⟩
  refine ⟨_, ht, ?_⟩
  match rq.headers.toHeader with
  | some t => rfl
  | none => rfl

/-- Witness for C5 at the spec's own example destination configuration. -/
theorem claim5_witness :
    onIncomingRequest c5Config c5Invite = .forwardInvite (rewriteInvite c5Config c5Invite) ∧
    (rewriteInvite c5Config c5Invite).uri = "sip:+5215541655565@nonocard.sip.twilio.com" ∧
    (rewriteInvite c5Config c5Invite).headers.fromHeader = "<sip:caller@wa.example>;tag=1" := by
  have h := claim5_invite_rewrite c5Config c5Invite rfl
  refine ⟨h.1, ?_, ?_⟩
  · rw [h.2.1]
    decide
  · rw [h.2.2.2]
    rfl

/-- C8: ACK, CANCEL, BYE, PRACK and UPDATE are relayed as-is: the action
forwards the request object itself, with no header, URI or body change. -/
theorem claim8_indialog_verbatim (cfg : GatewayConfig) (rq : SipRequest)
    (h : rq.method = "ACK" ∨ rq.method = "CANCEL" ∨ rq.method = "BYE" ∨
      rq.method = "PRACK" ∨ rq.method = "UPDATE") :
    onIncomingRequest cfg rq = .forward rq := by
  have hni : ¬rq.method = "INVITE" := by
    rcases h with h | h | h | h | h <;> rw [h] <;> decide
  rw [onIncomingRequest, if_neg hni, if_pos h]

/-- Witness for C8: a mid-dialog BYE is forwarded verbatim. -/
theorem claim8_witness : onIncomingRequest c5Config c8Bye = .forward c8Bye :=
  claim8_indialog_verbatim c5Config c8Bye (Or.inr (Or.inr (Or.inl rfl)))

/-- C9: any other method is answered locally with exactly one 405
"Method Not Allowed" response; the action contacts nobody downstream. -/
theorem claim9_unsupported_method (cfg : GatewayConfig) (rq : SipRequest)
    (h : rq.method ∉
      (["INVITE", "ACK", "CANCEL", "BYE", "PRACK", "UPDATE"] : List String)) :
    onIncomingRequest cfg rq = .respond 405 "Method Not Allowed" := by
  simp only [List.mem_cons, List.not_mem_nil, or_false, not_or] at h
  obtain ⟨h1, h2, h3, h4, h5, h6⟩ := h
  rw [onIncomingRequest, if_neg h1, if_neg (by tauto)]

/-- Witness for C9: an OPTIONS request yields the single 405 response. -/
theorem claim9_witness :
    onIncomingRequest c5Config c9Options = .respond 405 "Method Not Allowed" :=
  claim9_unsupported_method c5Config c9Options (by decide)

/-- C10: an INVITE body is rewritten and the Content-Length header set to
the UTF-8 byte length (the `Buffer.byteLength` semantics) of the rewritten
body; with no body (absent or empty, the JS falsiness test), both the body
and the Content-Length header are left untouched. -/
theorem claim10_content_length (cfg : GatewayConfig) (rq : SipRequest) :
    (∀ body, rq.content = some body → body ≠ "" →
      (rewriteInvite cfg rq).content = some (rewriteSdp body) ∧
        (rewriteInvite cfg rq).headers.contentLength =
          some (toString (rewriteSdp body).utf8ByteSize)) ∧
    (rq.content = none →
      (rewriteInvite cfg rq).content = rq.content ∧
        (rewriteInvite cfg rq).headers.contentLength = rq.headers.contentLength) ∧
    (rq.content = some "" →
      (rewriteInvite cfg rq).content = rq.content ∧
        (rewriteInvite cfg rq).headers.contentLength = rq.headers.contentLength) := by
  refine ⟨?_, ?_, ?_⟩
  · intro body hc hb
    constructor <;> simp [rewriteInvite, hc, hb]
  · intro hc
    constructor <;> simp [rewriteInvite, hc]
  · intro hc
    constructor <;> simp [rewriteInvite, hc]

/-- Witness for C10: a two-byte, one-character body shows the byte-length
semantics: the rewritten body "é\r\n" has 3 characters but Content-Length
becomes "4". -/
theorem claim10_witness :
    c10Invite.content = some "é" ∧
    (rewriteInvite c5Config c10Invite).content = some "é\r\n" ∧
    (rewriteInvite c5Config c10Invite).headers.contentLength = some "4" := by
  have h := (claim10_content_length c5Config c10Invite).1 "é" rfl (by decide)
  refine ⟨rfl, ?_, ?_⟩
  · rw [h.1]
    decide
  · rw [h.2]
    decide

end Webrtotwa
